import Mathlib

/-!
ZipCrypto stream cipher and entry decryptor (`main.go`).

A shallow embedding of the cipher engine (`ZipCrypto`, `NewZipCrypto`, `init`,
`updateKeys`, `magicByte`, `Decrypt`, `crc32update`) and of the entry decryptor
(`ZipCryptoDecryptor`) of `main.go`.

Machine integers are natural numbers: a `byte` is a `Nat` below `256`, a
`uint32` is a `Nat` below `2 ^ 32`, and every Go operation that can leave the
range carries its explicit `% 2 ^ 32` or `% 256`.  A `[]byte` is a `List Nat`.
A method with a pointer receiver that mutates the receiver returns the new
receiver value.
-/

set_option autoImplicit false

namespace Zip

/-! ## Cipher engine -/

/-- A value in the range of Go's `byte`. -/
abbrev isByte (b : Nat) : Prop := b < 256

/-- A value in the range of Go's `uint32`. -/
abbrev isU32 (k : Nat) : Prop := k < 2 ^ 32

/-- The reversed IEEE polynomial `crc32.IEEE` of Go's `hash/crc32`. -/
def IEEE : Nat := 0xedb88320

/-- One of the eight shift steps of `simplePopulateTable` in `hash/crc32`:
`if crc&1 == 1 { crc = (crc >> 1) ^ poly } else { crc >>= 1 }`. -/
def tableStep (crc : Nat) : Nat :=
  if crc &&& 1 = 1 then (crc >>> 1) ^^^ IEEE else crc >>> 1

/-- Modelled from the spec: the table `CRC32_IEEE_TABLE`, which the source takes
from Go's standard library as `crc32.IEEETable` (not under src/).  Entry `i` is
the value `simpleMakeTable(IEEE)` of `hash/crc32` stores at index `i`: eight
shift steps starting from `i`. -/
def IEEETable (i : Nat) : Nat :=
  tableStep (tableStep (tableStep (tableStep (tableStep (tableStep (tableStep (tableStep i)))))))

/-- The type `ZipCrypto` of `main.go`: the password and the three `uint32` keys
`Keys[0]`, `Keys[1]`, `Keys[2]`. -/
structure ZipCrypto where
  password : List Nat
  Keys : Nat × Nat × Nat

/-- The function `crc32update` of `main.go`:
`crc32.IEEETable[(pCrc32^uint32(bval))&0xff] ^ (pCrc32 >> 8)`. -/
def crc32update (pCrc32 : Nat) (bval : Nat) : Nat :=
  IEEETable ((pCrc32 ^^^ bval) &&& 0xff) ^^^ (pCrc32 >>> 8)

namespace ZipCrypto

/-- The method `updateKeys` of `main.go`, statement by statement; `+=` and
`*134775813 + 1` wrap modulo `2 ^ 32`, and `(byte)(Keys[1]>>24)` keeps the low
eight bits. -/
def updateKeys (z : ZipCrypto) (byteValue : Nat) : ZipCrypto :=
  let k0 := crc32update z.Keys.1 byteValue
  let k1 := (z.Keys.2.1 + (k0 &&& 0xff)) % 2 ^ 32
  let k1 := (k1 * 134775813 + 1) % 2 ^ 32
  let k2 := crc32update z.Keys.2.2 ((k1 >>> 24) % 256)
  { z with Keys := (k0, k1, k2) }

/-- The method `magicByte` of `main.go`: `t = Keys[2] | 2`, then
`byte((t * (t ^ 1)) >> 8)` with the product taken in `uint32`. -/
def magicByte (z : ZipCrypto) : Nat :=
  let t := z.Keys.2.2 ||| 2
  (((t * (t ^^^ 1)) % 2 ^ 32) >>> 8) % 256

/-- The method `init` of `main.go`: the three constants, then the loop
`for i := 0; i < len(z.password); i++ { z.updateKeys(z.password[i]) }`. -/
def init (z : ZipCrypto) : ZipCrypto :=
  let z0 : ZipCrypto := { z with Keys := (0x12345678, 0x23456789, 0x34567890) }
  (List.range z0.password.length).foldl
    (fun (w : ZipCrypto) (i : Nat) => w.updateKeys (w.password.getD i 0)) z0

/-- The loop `for i, c := range chiper` of `Decrypt`: `cs` is what is left of
`chiper` from index `i` on, `plain` the output slice written so far. -/
def decryptLoop : List Nat → Nat → ZipCrypto → List Nat → List Nat × ZipCrypto
  | [], _, z, plain => (plain, z)
  | c :: cs, i, z, plain =>
    let v := c ^^^ z.magicByte
    let z1 := z.updateKeys v
    decryptLoop cs (i + 1) z1 (plain.set i v)

/-- The method `Decrypt` of `main.go`: `plain := make([]byte, length)` is a
zeroed slice, the loop fills it; the result is the slice together with the
receiver as the loop left it. -/
def Decrypt (z : ZipCrypto) (chiper : List Nat) : List Nat × ZipCrypto :=
  decryptLoop chiper 0 z (List.replicate chiper.length 0)

end ZipCrypto

/-- The function `NewZipCrypto` of `main.go`. -/
def NewZipCrypto (passphrase : List Nat) : ZipCrypto :=
  let z : ZipCrypto := { password := [], Keys := (0, 0, 0) }
  let z : ZipCrypto := { z with password := passphrase }
  z.init

/-- The encryption the specification describes, written from its words: for
each plaintext byte in order, `cipherByte = plainByte XOR keystreamByte(state)`
and then `state' = update(state, plainByte)`. -/
def specEncrypt (z : ZipCrypto) : List Nat → List Nat
  | [] => []
  | p :: ps => (p ^^^ z.magicByte) :: specEncrypt (z.updateKeys p) ps

/-! ## Readers of Go's standard library, as far as `ZipCryptoDecryptor` uses them -/

/-- The two kinds of `error` value a read can return: `io.EOF`, and any other
I/O fault. -/
inductive Err where
  | EOF : Err
  | fault : Err
  deriving DecidableEq, Repr

/-- An `io.ReaderAt`: `ReadAt n off` is the outcome of `ReadAt(p, off)` on a
buffer `p` of length `n`, namely the bytes copied to the front of `p` and the
error returned. -/
structure ReaderAt where
  ReadAt : Nat → Nat → List Nat × Option Err

/-- The `ReadAt` method of a `bytes.Reader` over the slice `s`
(`bytes.NewReader(s)`): past the end it returns `0, io.EOF`; otherwise it copies
`s[off:]` into the buffer, with `io.EOF` when the buffer is not filled. -/
def bytesNewReader (s : List Nat) : ReaderAt where
  ReadAt := fun n off =>
    if off ≥ s.length then ([], some Err.EOF)
    else
      let got := (s.drop off).take n
      (got, if got.length < n then some Err.EOF else none)

/-- An `io.SectionReader`: the underlying `ReaderAt`, and the fields `base`,
`off` and `limit`. -/
structure SectionReader where
  r : ReaderAt
  base : Nat
  off : Nat
  limit : Nat

/-- The largest `int64`. -/
def maxint64 : Nat := 2 ^ 63 - 1

/-- The constructor `io.NewSectionReader(r, off, n)`: the section starts at
`off` and its limit is `off + n`, or `maxint64` when that sum overflows. -/
def NewSectionReader (r : ReaderAt) (off : Nat) (n : Nat) : SectionReader :=
  let remaining := if off ≤ maxint64 - n then n + off else maxint64
  { r := r, base := off, off := off, limit := remaining }

namespace SectionReader

/-- The method `Size` of `io.SectionReader`: `limit - base`. -/
def Size (s : SectionReader) : Nat := s.limit - s.base

/-- The method `Read` of `io.SectionReader` on the buffer `p`: at or past the
limit it returns `0, io.EOF`; otherwise it cuts `p` to what is left of the
section, calls `ReadAt` at the current offset and advances by the count read.
The result is the buffer after the call, the count, the error and the reader. -/
def Read (s : SectionReader) (p : List Nat) : List Nat × Nat × Option Err × SectionReader :=
  if s.off ≥ s.limit then (p, 0, some Err.EOF, s)
  else
    let max := s.limit - s.off
    let n := if p.length > max then max else p.length
    let res := s.r.ReadAt n s.off
    let got := res.1.take n
    (got ++ p.drop got.length, got.length, res.2, { s with off := s.off + got.length })

end SectionReader

/-- The read loop of `io.Copy` on a section reader, with a buffer of `bufLen`
bytes: each round reads once, appends the `nr` bytes read to what was written,
and stops at the first error, which it reports unless it is `io.EOF`.  `none`
means the rounds allowed by the first argument were used up. -/
def copyLoop (bufLen : Nat) : Nat → SectionReader → List Nat → Option (List Nat × Option Err)
  | 0, _, _ => none
  | fuel + 1, s, written =>
    let res := s.Read (List.replicate bufLen 0)
    let written1 := written ++ res.1.take res.2.1
    match res.2.2.1 with
    | some Err.EOF => some (written1, none)
    | some e => some (written1, some e)
    | none => copyLoop bufLen fuel res.2.2.2 written1

/-! ## Entry decryptor -/

/-- A buffer length at which `make([]byte, n)` allocates on every platform Go
runs on: `n` fits the 32-bit `int` and is below the allocation limit of the
runtime.  Past the limit of the platform `make` panics. -/
def maxMakeLen : Nat := 2 ^ 31 - 1

/-- The function `ZipCryptoDecryptor` of `main.go`: `b` is a zeroed buffer of
`r.Size()` bytes, `r.Read(b)` fills what it can and its two results are dropped,
`m` is the decryption of `b`, and the result is
`io.NewSectionReader(bytes.NewReader(m), 12, int64(len(m)))` with a `nil` error.
This is the call in which `make([]byte, r.Size())` returns its buffer; for a
size past the allocation limit `make` panics and the call returns nothing, so
what is stated of the result at an arbitrary size assumes that the read filled
the buffer or bounds the size by `maxMakeLen`. -/
def ZipCryptoDecryptor (r : SectionReader) (password : List Nat) :
    SectionReader × Option Err :=
  let z := NewZipCrypto password
  let b := List.replicate r.Size 0
  let b := (r.Read b).1
  let m := (z.Decrypt b).1
  (NewSectionReader (bytesNewReader m) 12 m.length, none)

/-! ## Sample inputs -/

/-- The password `"test"`. -/
def pwTest : List Nat := [116, 101, 115, 116]

/-- An entry of 16 bytes that can be read in full. -/
def fullEntry : SectionReader :=
  NewSectionReader (bytesNewReader [1, 2, 3, 4, 5, 6, 7, 8, 9, 10, 11, 12, 13, 14, 15, 16]) 0 16

/-- An entry of 5 bytes, shorter than the 12-byte prefix, that can be read in full. -/
def shortEntry : SectionReader :=
  NewSectionReader (bytesNewReader [1, 2, 3, 4, 5]) 0 5

/-- An entry declared with 16 bytes over a source that holds only 4: the read
returns 4 bytes and `io.EOF`. -/
def truncatedEntry : SectionReader :=
  NewSectionReader (bytesNewReader [1, 2, 3, 4]) 0 16

/-- A source whose every read fails with an I/O fault. -/
def faultyReaderAt : ReaderAt where
  ReadAt := fun _ _ => ([], some Err.fault)

/-- An entry declared with 16 bytes over the faulty source. -/
def faultyEntry : SectionReader :=
  NewSectionReader faultyReaderAt 0 16

/-! ## Lemmas on the cipher engine -/

theorem updateKeys_password (z : ZipCrypto) (b : Nat) :
    (z.updateKeys b).password = z.password := rfl

/-- The loop of `Decrypt`, started at index `pre.length` on a slice whose first
`pre.length` cells are `pre` and whose other cells are still zero, leaves `pre`
in place and writes behind it what `Decrypt` writes for the rest. -/
theorem decryptLoop_written (cs : List Nat) :
    ∀ (pre : List Nat) (z : ZipCrypto),
      ZipCrypto.decryptLoop cs pre.length z (pre ++ List.replicate cs.length 0)
        = (pre ++ (z.Decrypt cs).1, (z.Decrypt cs).2) := by
  induction cs with
  | nil => intro pre z; simp [ZipCrypto.decryptLoop, ZipCrypto.Decrypt]
  | cons c cs ih =>
    intro pre z
    have hset : ∀ (q : List Nat) (v : Nat),
        (q ++ List.replicate (c :: cs).length 0).set q.length v
          = (q ++ [v]) ++ List.replicate cs.length 0 := by
      intro q v
      simp [List.replicate_succ, List.set_append_right]
    have h1 := ih (pre ++ [c ^^^ z.magicByte]) (z.updateKeys (c ^^^ z.magicByte))
    have h2 := ih [c ^^^ z.magicByte] (z.updateKeys (c ^^^ z.magicByte))
    have e1 : ZipCrypto.decryptLoop (c :: cs) pre.length z
          (pre ++ List.replicate (c :: cs).length 0)
        = ZipCrypto.decryptLoop cs (pre ++ [c ^^^ z.magicByte]).length
            (z.updateKeys (c ^^^ z.magicByte))
            ((pre ++ [c ^^^ z.magicByte]) ++ List.replicate cs.length 0) := by
      rw [← hset pre (c ^^^ z.magicByte)]
      simp [ZipCrypto.decryptLoop]
    have e2 : z.Decrypt (c :: cs)
        = ZipCrypto.decryptLoop cs [c ^^^ z.magicByte].length
            (z.updateKeys (c ^^^ z.magicByte))
            ([c ^^^ z.magicByte] ++ List.replicate cs.length 0) := by
      have := hset [] (c ^^^ z.magicByte)
      simp only [List.nil_append, List.length_nil] at this
      simp only [ZipCrypto.Decrypt, ZipCrypto.decryptLoop, this]
      simp
    rw [e1, h1, e2, h2]
    simp

theorem Decrypt_nil (z : ZipCrypto) : z.Decrypt [] = ([], z) := rfl

theorem Decrypt_cons (z : ZipCrypto) (c : Nat) (cs : List Nat) :
    z.Decrypt (c :: cs)
      = ((c ^^^ z.magicByte) :: ((z.updateKeys (c ^^^ z.magicByte)).Decrypt cs).1,
         ((z.updateKeys (c ^^^ z.magicByte)).Decrypt cs).2) := by
  have h := decryptLoop_written cs [c ^^^ z.magicByte] (z.updateKeys (c ^^^ z.magicByte))
  have hset : (List.replicate (c :: cs).length 0).set 0 (c ^^^ z.magicByte)
      = [c ^^^ z.magicByte] ++ List.replicate cs.length 0 := by
    simp [List.replicate_succ]
  show ZipCrypto.decryptLoop cs (0 + 1) (z.updateKeys (c ^^^ z.magicByte))
      ((List.replicate (c :: cs).length 0).set 0 (c ^^^ z.magicByte)) = _
  rw [hset]
  simpa using h

theorem Decrypt_length_aux (cs : List Nat) :
    ∀ z : ZipCrypto, (z.Decrypt cs).1.length = cs.length := by
  induction cs with
  | nil => intro z; rfl
  | cons c cs ih => intro z; rw [Decrypt_cons]; simp [ih]

theorem Decrypt_append_aux (A : List Nat) :
    ∀ (z : ZipCrypto) (B : List Nat),
      z.Decrypt (A ++ B)
        = ((z.Decrypt A).1 ++ ((z.Decrypt A).2.Decrypt B).1, ((z.Decrypt A).2.Decrypt B).2) := by
  induction A with
  | nil => intro z B; simp [Decrypt_nil]
  | cons a A ih =>
    intro z B
    rw [List.cons_append, Decrypt_cons, ih, Decrypt_cons]
    simp

theorem Decrypt_take_aux (z : ZipCrypto) (C : List Nat) (n : Nat) :
    (z.Decrypt C).1.take n = (z.Decrypt (C.take n)).1 := by
  conv_lhs => rw [← List.take_append_drop n C, Decrypt_append_aux]
  by_cases h : n ≤ C.length
  · have hl : ((z.Decrypt (C.take n)).1).length = n := by
      rw [Decrypt_length_aux]; simp [h]
    simp only
    rw [List.take_append_of_le_length (by omega), List.take_of_length_le (by omega)]
  · have hd : C.drop n = [] := by
      apply List.drop_eq_nil_of_le; omega
    have ht : C.take n = C := by
      apply List.take_of_length_le; omega
    rw [hd, ht]
    simp only [Decrypt_nil, List.append_nil]
    apply List.take_of_length_le
    rw [Decrypt_length_aux]; omega

theorem Decrypt_specEncrypt_aux (M : List Nat) :
    ∀ z : ZipCrypto, (z.Decrypt (specEncrypt z M)).1 = M := by
  induction M with
  | nil => intro z; rfl
  | cons p ps ih =>
    intro z
    simp only [specEncrypt]
    rw [Decrypt_cons]
    simp only [Nat.xor_cancel_right]
    rw [ih]

theorem updateKeys_keys_congr (w w' : ZipCrypto) (b : Nat) (h : w.Keys = w'.Keys) :
    (w.updateKeys b).Keys = (w'.updateKeys b).Keys := by
  simp only [ZipCrypto.updateKeys, h]

theorem foldl_updateKeys_keys_congr (P : List Nat) :
    ∀ w w' : ZipCrypto, w.Keys = w'.Keys →
      (P.foldl ZipCrypto.updateKeys w).Keys = (P.foldl ZipCrypto.updateKeys w').Keys := by
  induction P with
  | nil => intro w w' h; exact h
  | cons b P ih =>
    intro w w' h
    simp only [List.foldl_cons]
    exact ih _ _ (updateKeys_keys_congr w w' b h)

theorem getD_append_cons (pre rest : List Nat) (b : Nat) :
    (pre ++ b :: rest).getD pre.length 0 = b := by
  rw [List.getD_eq_getElem?_getD, List.getElem?_append_right (Nat.le_refl _), Nat.sub_self]
  simp

/-- The index loop of `init`, from index `pre.length` on, feeds the rest of the
password byte by byte. -/
theorem init_loop_aux (rest : List Nat) :
    ∀ (pre : List Nat) (w : ZipCrypto), w.password = pre ++ rest →
      (List.range' pre.length rest.length).foldl
          (fun (w : ZipCrypto) (i : Nat) => w.updateKeys (w.password.getD i 0)) w
        = rest.foldl ZipCrypto.updateKeys w := by
  induction rest with
  | nil =>
    intro pre w _
    simp only [List.length_nil, List.range'_zero, List.foldl_nil]
  | cons b rest ih =>
    intro pre w hw
    have hb : w.password.getD pre.length 0 = b := by
      rw [hw]
      exact getD_append_cons pre rest b
    have hw1 : (w.updateKeys b).password = (pre ++ [b]) ++ rest := by
      rw [updateKeys_password, hw]; simp
    have h := ih (pre ++ [b]) (w.updateKeys b) hw1
    simp only [List.length_append, List.length_singleton] at h
    simp only [List.length_cons, List.range'_succ, List.foldl_cons, hb]
    exact h

theorem init_eq_foldl (z : ZipCrypto) :
    z.init = z.password.foldl ZipCrypto.updateKeys
      { z with Keys := (0x12345678, 0x23456789, 0x34567890) } := by
  have h := init_loop_aux z.password []
    { z with Keys := (0x12345678, 0x23456789, 0x34567890) } rfl
  simp only [List.length_nil] at h
  simp only [ZipCrypto.init, List.range_eq_range']
  exact h

theorem tableStep_lt (x : Nat) (h : x < 2 ^ 32) : tableStep x < 2 ^ 32 := by
  have hs : x >>> 1 < 2 ^ 32 := by
    rw [Nat.shiftRight_eq_div_pow]
    exact lt_of_le_of_lt (Nat.div_le_self _ _) h
  unfold tableStep
  split
  · exact Nat.xor_lt_two_pow hs (by decide)
  · exact hs

theorem IEEETable_lt (i : Nat) (h : i < 2 ^ 32) : IEEETable i < 2 ^ 32 := by
  unfold IEEETable
  iterate 8 apply tableStep_lt
  exact h

theorem crc32update_lt (k b : Nat) (h : k < 2 ^ 32) : crc32update k b < 2 ^ 32 := by
  unfold crc32update
  apply Nat.xor_lt_two_pow
  · apply IEEETable_lt
    exact lt_of_le_of_lt Nat.and_le_right (by decide)
  · rw [Nat.shiftRight_eq_div_pow]
    exact lt_of_le_of_lt (Nat.div_le_self _ _) h

theorem updateKeys_isU32 (z : ZipCrypto) (b : Nat)
    (h : isU32 z.Keys.1 ∧ isU32 z.Keys.2.1 ∧ isU32 z.Keys.2.2) :
    isU32 (z.updateKeys b).Keys.1 ∧ isU32 (z.updateKeys b).Keys.2.1 ∧
      isU32 (z.updateKeys b).Keys.2.2 := by
  refine ⟨crc32update_lt _ _ h.1, ?_, crc32update_lt _ _ h.2.2⟩
  exact Nat.mod_lt _ (by decide)

theorem magicByte_isByte (z : ZipCrypto) : isByte z.magicByte :=
  Nat.mod_lt _ (by decide)

theorem Decrypt_bytes_aux (cs : List Nat) :
    ∀ z : ZipCrypto, (∀ c ∈ cs, isByte c) → ∀ v ∈ (z.Decrypt cs).1, isByte v := by
  induction cs with
  | nil => intro z _ v hv; simp [Decrypt_nil] at hv
  | cons c cs ih =>
    intro z hc v hv
    rw [Decrypt_cons] at hv
    simp only [List.mem_cons] at hv
    rcases hv with hv | hv
    · rw [hv]
      exact @Nat.xor_lt_two_pow _ _ 8 (hc c (by simp)) (magicByte_isByte z)
    · exact ih _ (fun c' hc' => hc c' (by simp [hc'])) v hv

/-! ## Lemmas on the readers -/

theorem NewSectionReader_fields (r : ReaderAt) (n : Nat) (h : n ≤ maxint64) :
    (NewSectionReader r 12 n).r = r ∧ (NewSectionReader r 12 n).off = 12 ∧
      (NewSectionReader r 12 n).base = 12 ∧ n ≤ (NewSectionReader r 12 n).limit ∧
      (NewSectionReader r 12 n).limit ≤ n + 12 := by
  refine ⟨rfl, rfl, rfl, ?_, ?_⟩
  · simp only [NewSectionReader]
    split <;> omega
  · simp only [NewSectionReader]
    split
    · omega
    · simp only [maxint64] at *; omega

/-- One round of reading from a section over `bytes.NewReader(m)` whose limit is
not below `len(m)`: the bytes read are a front part of `m[off:]`; on `io.EOF`
they are all of it, and without an error the offset has advanced. -/
theorem Read_bytesNewReader (s : SectionReader) (m : List Nat) (bufLen : Nat)
    (hr : s.r = bytesNewReader m) (hlim : m.length ≤ s.limit) (hbuf : 0 < bufLen) :
    let res := s.Read (List.replicate bufLen 0)
    (res.2.2.1 = some Err.EOF ∧ res.1.take res.2.1 = m.drop s.off) ∨
    (res.2.2.1 = none ∧ res.2.2.2.r = s.r ∧ res.2.2.2.limit = s.limit ∧
      s.off < res.2.2.2.off ∧ res.2.2.2.off ≤ m.length ∧
      res.1.take res.2.1 ++ m.drop res.2.2.2.off = m.drop s.off) := by
  intro res
  by_cases h1 : s.limit ≤ s.off
  · left
    have hres : res = (List.replicate bufLen 0, 0, some Err.EOF, s) := by
      simp [res, SectionReader.Read, h1]
    rw [hres]
    refine ⟨rfl, ?_⟩
    simp only [List.take_zero]
    exact (List.drop_eq_nil_of_le (by omega)).symm
  · by_cases h2 : m.length ≤ s.off
    · left
      have hres : res.2.2.1 = some Err.EOF ∧ res.2.1 = 0 := by
        simp [res, SectionReader.Read, h1, hr, bytesNewReader, h2]
      refine ⟨hres.1, ?_⟩
      rw [hres.2, List.take_zero]
      exact (List.drop_eq_nil_of_le h2).symm
    · have h1' : ¬ (s.off ≥ s.limit) := by omega
      have h2' : ¬ (s.off ≥ m.length) := by omega
      obtain ⟨n, hn, hnpos⟩ : ∃ n, n = (if (List.replicate bufLen 0).length > s.limit - s.off
          then s.limit - s.off else (List.replicate bufLen 0).length) ∧ 0 < n := by
        refine ⟨_, rfl, ?_⟩
        simp only [List.length_replicate]
        split <;> omega
      have hnle : n ≤ bufLen := by
        rw [hn]; simp only [List.length_replicate]; split <;> omega
      have hgot : ((m.drop s.off).take n).take n = (m.drop s.off).take n := by
        rw [List.take_take]; simp
      have hres : res = ((m.drop s.off).take n
            ++ (List.replicate bufLen 0).drop ((m.drop s.off).take n).length,
          ((m.drop s.off).take n).length,
          (if ((m.drop s.off).take n).length < n then some Err.EOF else none),
          { s with off := s.off + ((m.drop s.off).take n).length }) := by
        simp only [res, SectionReader.Read, if_neg h1', hr, bytesNewReader, if_neg h2', ← hn, hgot]
      have htake : res.1.take res.2.1 = (m.drop s.off).take n := by
        rw [hres]; simp
      have hlen : ((m.drop s.off).take n).length = min n (m.length - s.off) := by
        rw [List.length_take, List.length_drop]
      rw [Nat.min_def] at hlen
      by_cases h3 : ((m.drop s.off).take n).length < n
      · left
        refine ⟨by rw [hres]; simp only [if_pos h3], ?_⟩
        rw [htake]
        apply List.take_of_length_le
        rw [List.length_drop]
        split at hlen <;> omega
      · right
        have hfull : ((m.drop s.off).take n).length = n := by
          split at hlen <;> omega
        have hroom : n ≤ m.length - s.off := by
          split at hlen <;> omega
        refine ⟨by rw [hres]; simp only [if_neg h3], by rw [hres], by rw [hres], ?_, ?_, ?_⟩
        · rw [hres]; simp only; omega
        · rw [hres]; simp only; omega
        · rw [htake, hres]
          simp only
          rw [hfull, ← List.drop_drop, List.take_append_drop]

/-- The copy loop on a section over `bytes.NewReader(m)` whose limit is not
below `len(m)` delivers exactly `m[off:]`, without error, once it is given one
round more than there are bytes left. -/
theorem copyLoop_bytesNewReader (m : List Nat) (bufLen : Nat) (hbuf : 0 < bufLen) :
    ∀ (fuel : Nat) (s : SectionReader) (written : List Nat),
      s.r = bytesNewReader m → m.length ≤ s.limit → m.length - s.off + 1 ≤ fuel →
      copyLoop bufLen fuel s written = some (written ++ m.drop s.off, none) := by
  intro fuel
  induction fuel with
  | zero => intro s written _ _ hf; omega
  | succ fuel ih =>
    intro s written hr hlim hf
    have h := Read_bytesNewReader s m bufLen hr hlim hbuf
    simp only at h
    rcases h with ⟨he, ht⟩ | ⟨he, hr1, hl1, ho1, ho2, ht⟩
    · simp only [copyLoop, he, ht]
    · simp only [copyLoop, he]
      rw [ih _ _ (hr1.trans hr) (hl1 ▸ hlim) (by omega), List.append_assoc, ht]

theorem Read_buffer_length (s : SectionReader) (p : List Nat) :
    (s.Read p).1.length = p.length := by
  unfold SectionReader.Read
  split
  · rfl
  · simp only [List.length_append, List.length_drop, List.length_take]
    split <;> omega

theorem ZipCryptoDecryptor_reader (r : SectionReader) (P : List Nat) :
    (ZipCryptoDecryptor r P).1
      = NewSectionReader
          (bytesNewReader ((NewZipCrypto P).Decrypt (r.Read (List.replicate r.Size 0)).1).1) 12
          ((NewZipCrypto P).Decrypt (r.Read (List.replicate r.Size 0)).1).1.length := rfl

/-- The reader `ZipCryptoDecryptor` returns reports as its `Size()` the full
length of the entry, the 12 dropped bytes included. -/
theorem ZipCryptoDecryptor_reader_Size (r : SectionReader) (P : List Nat)
    (hsize : r.Size + 12 ≤ maxint64) :
    (ZipCryptoDecryptor r P).1.Size = r.Size := by
  have hlen : ((NewZipCrypto P).Decrypt (r.Read (List.replicate r.Size 0)).1).1.length
      = r.Size := by
    rw [Decrypt_length_aux, Read_buffer_length, List.length_replicate]
  have hgen : ∀ (q : ReaderAt) (n : Nat), n + 12 ≤ maxint64 →
      (NewSectionReader q 12 n).Size = n := by
    intro q n hn
    simp only [SectionReader.Size, NewSectionReader]
    rw [if_pos (by omega)]
    omega
  rw [ZipCryptoDecryptor_reader, hgen _ _ (by rw [hlen]; exact hsize), hlen]

/-- What the copy loop delivers from the reader `ZipCryptoDecryptor` returns: the
decryption of the buffer after the read, without its first 12 bytes. -/
theorem ZipCryptoDecryptor_copy (r : SectionReader) (P : List Nat) (bufLen fuel : Nat)
    (hsize : r.Size ≤ maxint64) (hbuf : 0 < bufLen) (hfuel : r.Size + 1 ≤ fuel) :
    copyLoop bufLen fuel (ZipCryptoDecryptor r P).1 []
      = some (((NewZipCrypto P).Decrypt (r.Read (List.replicate r.Size 0)).1).1.drop 12, none) := by
  have hlen : ((NewZipCrypto P).Decrypt (r.Read (List.replicate r.Size 0)).1).1.length
      = r.Size := by
    rw [Decrypt_length_aux, Read_buffer_length, List.length_replicate]
  rw [ZipCryptoDecryptor_reader]
  obtain ⟨h1, h2, _, h4, _⟩ := NewSectionReader_fields
    (bytesNewReader ((NewZipCrypto P).Decrypt (r.Read (List.replicate r.Size 0)).1).1)
    ((NewZipCrypto P).Decrypt (r.Read (List.replicate r.Size 0)).1).1.length
    (by rw [hlen]; exact hsize)
  have h := copyLoop_bytesNewReader
    ((NewZipCrypto P).Decrypt (r.Read (List.replicate r.Size 0)).1).1 bufLen hbuf fuel _ []
    h1 h4 (by rw [h2, hlen]; omega)
  rw [h, h2, List.nil_append]

/-! ## The claims -/

/-- C1: cipher round trip.  For every password `P` and every byte sequence `M`,
decrypting with a fresh `NewZipCrypto P` the encryption of `M` under
`NewZipCrypto P` (each cipher byte is the plain byte XOR `magicByte`, then
`updateKeys` on the plain byte) returns exactly `M`. -/
theorem C1_decrypt_encrypt_roundtrip (P M : List Nat) :
    ((NewZipCrypto P).Decrypt (specEncrypt (NewZipCrypto P) M)).1 = M :=
  Decrypt_specEncrypt_aux M (NewZipCrypto P)

/-- C2: plaintext feedback in `Decrypt`.  From every starting state `z` and for
every ciphertext there is the sequence of states `st 0 = z, st 1, ...` the loop
goes through: the output has the length of the ciphertext, at each position `i`
the output byte is `cipher[i] XOR magicByte (st i)` and the next state is
`updateKeys (st i)` on that output byte, and the state `Decrypt` leaves is the
last of the sequence.  Feeding the decrypted byte is not the same as feeding the
cipher byte: from the initial keys the two give different keys on the byte 0. -/
theorem C2_Decrypt_plaintext_feedback :
    (∀ (z : ZipCrypto) (cipher : List Nat),
      ∃ st : Nat → ZipCrypto,
        st 0 = z ∧
        (z.Decrypt cipher).1.length = cipher.length ∧
        (∀ i, i < cipher.length →
          (z.Decrypt cipher).1.getD i 0 = cipher.getD i 0 ^^^ (st i).magicByte ∧
          st (i + 1) = (st i).updateKeys ((z.Decrypt cipher).1.getD i 0)) ∧
        (z.Decrypt cipher).2 = st cipher.length) ∧
    ((NewZipCrypto []).updateKeys (0 ^^^ (NewZipCrypto []).magicByte)).Keys
      ≠ ((NewZipCrypto []).updateKeys 0).Keys := by
  refine ⟨?_, by decide⟩
  intro z cipher
  induction cipher generalizing z with
  | nil =>
    refine ⟨fun _ => z, rfl, rfl, ?_, rfl⟩
    intro i hi
    simp at hi
  | cons c cs ih =>
    obtain ⟨st, h0, hlen, hstep, hfin⟩ := ih (z.updateKeys (c ^^^ z.magicByte))
    refine ⟨fun i => match i with
      | 0 => z
      | k + 1 => st k, rfl, ?_, ?_, ?_⟩
    · rw [Decrypt_cons]; simp [hlen]
    · intro i hi
      rw [Decrypt_cons]
      cases i with
      | zero => simp [h0]
      | succ k =>
        have hk : k < cs.length := by simpa using hi
        have := hstep k hk
        simpa using this
    · rw [Decrypt_cons]
      simpa using hfin

/-- C3: key initialisation.  For every password `P`, `NewZipCrypto P` keeps `P`
and its keys are those reached from `(0x12345678, 0x23456789, 0x34567890)` by
`updateKeys` on each byte of `P` from first to last, whatever else the starting
value holds; for the empty password the keys are the three constants. -/
theorem C3_NewZipCrypto_keys (P : List Nat) :
    (NewZipCrypto P).password = P ∧
    NewZipCrypto P
      = P.foldl ZipCrypto.updateKeys
          { password := P, Keys := (0x12345678, 0x23456789, 0x34567890) } ∧
    (∀ q : List Nat, (NewZipCrypto P).Keys
      = (P.foldl ZipCrypto.updateKeys
          { password := q, Keys := (0x12345678, 0x23456789, 0x34567890) }).Keys) ∧
    (NewZipCrypto []).Keys = (0x12345678, 0x23456789, 0x34567890) := by
  have hfold : NewZipCrypto P
      = P.foldl ZipCrypto.updateKeys
          { password := P, Keys := (0x12345678, 0x23456789, 0x34567890) } := by
    unfold NewZipCrypto
    exact init_eq_foldl _
  have hpw : ∀ (Q : List Nat) (w : ZipCrypto),
      (Q.foldl ZipCrypto.updateKeys w).password = w.password := by
    intro Q
    induction Q with
    | nil => intro w; rfl
    | cons b Q ih => intro w; simp only [List.foldl_cons]; rw [ih, updateKeys_password]
  refine ⟨?_, hfold, ?_, rfl⟩
  · rw [hfold, hpw]
  · intro q
    rw [hfold]
    exact foldl_updateKeys_keys_congr P _ _ rfl

/-- C4: the key-update step, bit-exact modulo `2 ^ 32`.  For every state and
byte `b`, `updateKeys` gives `k0' = IEEETable[(k0 XOR b) AND 0xFF] XOR (k0 >> 8)`,
`k1' = ((k1 + (k0' AND 0xFF)) * 134775813 + 1) mod 2 ^ 32` with the new `k0'`,
and `k2' = IEEETable[(k2 XOR ((k1' >> 24) AND 0xFF)) AND 0xFF] XOR (k2 >> 8)`
with the new `k1'`; the password is untouched, and keys in the `uint32` range
stay in it. -/
theorem C4_updateKeys_bit_exact (z : ZipCrypto) (b : Nat) :
    (z.updateKeys b).Keys.1
      = IEEETable ((z.Keys.1 ^^^ b) &&& 0xFF) ^^^ (z.Keys.1 >>> 8) ∧
    (z.updateKeys b).Keys.2.1
      = ((z.Keys.2.1 + ((z.updateKeys b).Keys.1 &&& 0xFF)) * 134775813 + 1) % 2 ^ 32 ∧
    (z.updateKeys b).Keys.2.2
      = IEEETable ((z.Keys.2.2 ^^^ (((z.updateKeys b).Keys.2.1 >>> 24) &&& 0xFF)) &&& 0xFF)
          ^^^ (z.Keys.2.2 >>> 8) ∧
    (z.updateKeys b).password = z.password ∧
    (isU32 z.Keys.1 ∧ isU32 z.Keys.2.1 ∧ isU32 z.Keys.2.2 →
      isU32 (z.updateKeys b).Keys.1 ∧ isU32 (z.updateKeys b).Keys.2.1 ∧
        isU32 (z.updateKeys b).Keys.2.2) := by
  refine ⟨rfl, ?_, ?_, rfl, updateKeys_isU32 z b⟩
  · show ((z.Keys.2.1 + (crc32update z.Keys.1 b &&& 0xff)) % 2 ^ 32 * 134775813 + 1) % 2 ^ 32
      = ((z.Keys.2.1 + (crc32update z.Keys.1 b &&& 0xFF)) * 134775813 + 1) % 2 ^ 32
    rw [Nat.add_mod (_ * _), Nat.mul_mod, Nat.mod_mod, ← Nat.mul_mod, ← Nat.add_mod]
  · have hmask : ∀ x : Nat, x % 256 = x &&& 0xFF := by
      intro x
      exact (Nat.and_pow_two_sub_one_eq_mod x 8).symm
    show crc32update z.Keys.2.2 (((z.updateKeys b).Keys.2.1 >>> 24) % 256) = _
    rw [hmask]
    rfl

/-- C5: the keystream byte.  For every state, `magicByte` is the low 8 bits of
`((t * (t XOR 1)) mod 2 ^ 32) >> 8` with `t = Keys[2] OR 2`; it is a function
of the state that returns only the byte, and two states with the same `Keys[2]`
give the same byte whatever their `Keys[0]`, `Keys[1]` and password. -/
theorem C5_magicByte_value (z : ZipCrypto) :
    z.magicByte
      = ((((z.Keys.2.2 ||| 2) * ((z.Keys.2.2 ||| 2) ^^^ 1)) % 2 ^ 32) >>> 8) &&& 0xFF ∧
    isByte z.magicByte ∧
    ∀ w : ZipCrypto, w.Keys.2.2 = z.Keys.2.2 → w.magicByte = z.magicByte := by
  refine ⟨?_, magicByte_isByte z, ?_⟩
  · exact (Nat.and_pow_two_sub_one_eq_mod _ 8).symm
  · intro w hw
    simp only [ZipCrypto.magicByte, hw]

set_option maxRecDepth 4000 in
/-- C7 as stated fails on a stream shorter than 12 bytes: the 5-byte entry
`shortEntry` is read in full, the payload is empty, so its length is `0` and
not `5 - 12`. -/
theorem C7_short_stream_counterexample :
    ∃ payload : List Nat,
      shortEntry.Read (List.replicate shortEntry.Size 0)
        = ([1, 2, 3, 4, 5], shortEntry.Size, none, { shortEntry with off := 5 }) ∧
      copyLoop 32 6 (ZipCryptoDecryptor shortEntry pwTest).1 [] = some (payload, none) ∧
      shortEntry.Size = 5 ∧
      (payload.length : Int) ≠ (shortEntry.Size : Int) - 12 :=
  ⟨[], by rfl, by rfl, by rfl, by decide⟩

/-- C7, amended: for every entry stream `S` of at least 12 bytes that the read
delivers in full into a buffer `make` can allocate (`len(S) = r.Size()` is at
most `maxMakeLen`), and every password, the payload read from the reader
`ZipCryptoDecryptor` returns has length `len(S) - 12`; for such a stream
shorter than 12 bytes the payload is empty. -/
theorem C7_payload_length (r : SectionReader) (P S : List Nat)
    (e : Option Err) (r1 : SectionReader) (bufLen fuel : Nat)
    (hread : r.Read (List.replicate r.Size 0) = (S, r.Size, e, r1))
    (hsize : r.Size ≤ maxMakeLen) (hbuf : 0 < bufLen) (hfuel : r.Size + 1 ≤ fuel) :
    S.length = r.Size ∧
    ∃ payload : List Nat,
      copyLoop bufLen fuel (ZipCryptoDecryptor r P).1 [] = some (payload, none) ∧
      (12 ≤ S.length → (payload.length : Int) = (S.length : Int) - 12) ∧
      (S.length < 12 → payload = []) := by
  have hS : (r.Read (List.replicate r.Size 0)).1 = S := by rw [hread]
  have hSlen : S.length = r.Size := by
    rw [← hS, Read_buffer_length, List.length_replicate]
  have hmax : r.Size ≤ maxint64 := by
    have h31 : maxMakeLen ≤ maxint64 := by decide
    exact le_trans hsize h31
  have hlen : ((NewZipCrypto P).Decrypt (r.Read (List.replicate r.Size 0)).1).1.length
      = S.length := by
    rw [Decrypt_length_aux, Read_buffer_length, List.length_replicate, hSlen]
  refine ⟨hSlen, _, ZipCryptoDecryptor_copy r P bufLen fuel hmax hbuf hfuel, ?_, ?_⟩
  · intro h
    rw [List.length_drop, hlen]
    omega
  · intro h
    apply List.drop_eq_nil_of_le
    omega

set_option maxRecDepth 4000 in
/-- C7, amended, at the 16-byte entry `fullEntry`, read in full: the payload
has 4 bytes. -/
theorem C7_payload_length_witness :
    fullEntry.Read (List.replicate fullEntry.Size 0)
        = ([1, 2, 3, 4, 5, 6, 7, 8, 9, 10, 11, 12, 13, 14, 15, 16], fullEntry.Size, none,
            { fullEntry with off := 16 }) ∧
      fullEntry.Size ≤ maxMakeLen ∧
      ∃ payload : List Nat,
        copyLoop 5 17 (ZipCryptoDecryptor fullEntry pwTest).1 [] = some (payload, none) ∧
        (payload.length : Int) = 16 - 12 := by
  obtain ⟨_, payload, h1, h2, _⟩ :=
    C7_payload_length fullEntry pwTest
      [1, 2, 3, 4, 5, 6, 7, 8, 9, 10, 11, 12, 13, 14, 15, 16] none { fullEntry with off := 16 }
      5 17 (by rfl) (by decide) (by decide) (by decide)
  exact ⟨by rfl, by decide, payload, h1, h2 (by decide)⟩

/-- C8: the cipher layer never fails and keeps the length.  For every password
and every ciphertext, `Decrypt` on `NewZipCrypto password` returns a sequence
(there is no error result) as long as the ciphertext, and its elements are
bytes when those of the ciphertext are. -/
theorem C8_Decrypt_total_same_length (P C : List Nat) :
    ∃ (plain : List Nat) (z1 : ZipCrypto),
      (NewZipCrypto P).Decrypt C = (plain, z1) ∧
      plain.length = C.length ∧
      ((∀ c ∈ C, isByte c) → ∀ v ∈ plain, isByte v) :=
  ⟨((NewZipCrypto P).Decrypt C).1, ((NewZipCrypto P).Decrypt C).2, rfl,
    Decrypt_length_aux C _, Decrypt_bytes_aux C _⟩

set_option maxRecDepth 4000 in
/-- C9 fails on the code: on `truncatedEntry` the read returns 4 of 16 bytes
with `io.EOF`, on `faultyEntry` it returns an I/O fault, and in both cases
`ZipCryptoDecryptor` returns a `nil` error and a 4-byte payload, the
decryption of a buffer whose unread cells are zero. -/
theorem C9_ZipCryptoDecryptor_drops_read_error :
    truncatedEntry.Size = 16 ∧
    (truncatedEntry.Read (List.replicate truncatedEntry.Size 0)).2.1 = 4 ∧
    (truncatedEntry.Read (List.replicate truncatedEntry.Size 0)).2.2.1 = some Err.EOF ∧
    (ZipCryptoDecryptor truncatedEntry pwTest).2 = none ∧
    copyLoop 32 17 (ZipCryptoDecryptor truncatedEntry pwTest).1 []
      = some ([6, 235, 57, 150], none) ∧
    faultyEntry.Size = 16 ∧
    (faultyEntry.Read (List.replicate faultyEntry.Size 0)).2.1 = 0 ∧
    (faultyEntry.Read (List.replicate faultyEntry.Size 0)).2.2.1 = some Err.fault ∧
    (ZipCryptoDecryptor faultyEntry pwTest).2 = none ∧
    copyLoop 32 17 (ZipCryptoDecryptor faultyEntry pwTest).1 []
      = some ([59, 209, 157, 176], none) :=
  ⟨by rfl, by rfl, by rfl, by rfl, by rfl, by rfl, by rfl, by rfl, by rfl, by rfl⟩

/-- C10: `Decrypt` is resumable.  From every starting state, `Decrypt` on `A`
and then on `B` gives outputs whose concatenation is the output of one
`Decrypt` on `A ++ B`, with the same final keys; and the first `n` output bytes
are the same for two ciphertexts with the same first `n` bytes. -/
theorem C10_Decrypt_resumable (z : ZipCrypto) :
    (∀ A B : List Nat,
      (z.Decrypt (A ++ B)).1 = (z.Decrypt A).1 ++ ((z.Decrypt A).2.Decrypt B).1 ∧
      (z.Decrypt (A ++ B)).2 = ((z.Decrypt A).2.Decrypt B).2) ∧
    (∀ (n : Nat) (C D : List Nat), C.take n = D.take n →
      (z.Decrypt C).1.take n = (z.Decrypt D).1.take n) := by
  refine ⟨?_, ?_⟩
  · intro A B
    rw [Decrypt_append_aux]
    exact ⟨rfl, rfl⟩
  · intro n C D h
    rw [Decrypt_take_aux, Decrypt_take_aux, h]

/-! ## The claims at concrete inputs -/

set_option maxRecDepth 4000 in
/-- C2 at the ciphertext `[5, 6]` under the password `"test"`: the second output
byte is the second cipher byte XOR the keystream byte of the state updated with
the first output byte. -/
theorem C2_Decrypt_plaintext_feedback_witness :
    ((NewZipCrypto pwTest).Decrypt [5, 6]).1.getD 1 0
      = 6 ^^^ ((NewZipCrypto pwTest).updateKeys
          (5 ^^^ (NewZipCrypto pwTest).magicByte)).magicByte := by
  obtain ⟨st, h0, _, hstep, _⟩ := C2_Decrypt_plaintext_feedback.1 (NewZipCrypto pwTest) [5, 6]
  have s0 := hstep 0 (by decide)
  have s1 := hstep 1 (by decide)
  rw [h0] at s0
  rw [s0.2, s0.1] at s1
  exact s1.1

/-- C4 at the initial keys and the byte 97: the keys start in the `uint32`
range and stay in it. -/
theorem C4_updateKeys_bit_exact_witness :
    (isU32 (NewZipCrypto []).Keys.1 ∧ isU32 (NewZipCrypto []).Keys.2.1 ∧
      isU32 (NewZipCrypto []).Keys.2.2) ∧
    (isU32 ((NewZipCrypto []).updateKeys 97).Keys.1 ∧
      isU32 ((NewZipCrypto []).updateKeys 97).Keys.2.1 ∧
      isU32 ((NewZipCrypto []).updateKeys 97).Keys.2.2) :=
  ⟨by decide, (C4_updateKeys_bit_exact (NewZipCrypto []) 97).2.2.2.2 (by decide)⟩

/-- C5 at two states that share `Keys[2]` and differ in everything else. -/
theorem C5_magicByte_value_witness :
    ({ password := [1], Keys := (1, 2, 0x34567890) } : ZipCrypto).Keys.2.2
        = (NewZipCrypto []).Keys.2.2 ∧
      ({ password := [1], Keys := (1, 2, 0x34567890) } : ZipCrypto).magicByte
        = (NewZipCrypto []).magicByte :=
  ⟨by rfl, (C5_magicByte_value (NewZipCrypto [])).2.2 _ (by rfl)⟩

/-- C8 at a ciphertext of three bytes under the password `"test"`. -/
theorem C8_Decrypt_total_same_length_witness :
    (∀ c ∈ [200, 0, 77], isByte c) ∧
      ∃ (plain : List Nat) (z1 : ZipCrypto),
        (NewZipCrypto pwTest).Decrypt [200, 0, 77] = (plain, z1) ∧
        plain.length = 3 ∧ ∀ v ∈ plain, isByte v := by
  have hb : ∀ c ∈ [200, 0, 77], isByte c := by decide
  obtain ⟨plain, z1, h1, h2, h3⟩ := C8_Decrypt_total_same_length pwTest [200, 0, 77]
  exact ⟨hb, plain, z1, h1, h2, h3 hb⟩

/-- C10 at two ciphertexts that agree on their first two bytes. -/
theorem C10_Decrypt_resumable_witness :
    List.take 2 [1, 2, 3] = List.take 2 [1, 2, 9, 4] ∧
      ((NewZipCrypto pwTest).Decrypt [1, 2, 3]).1.take 2
        = ((NewZipCrypto pwTest).Decrypt [1, 2, 9, 4]).1.take 2 :=
  ⟨by rfl, (C10_Decrypt_resumable (NewZipCrypto pwTest)).2 2 [1, 2, 3] [1, 2, 9, 4] (by rfl)⟩

end Zip
